import Mathlib

/-
Verification development for pydeck's `bindings/json_tools.py`
(the serialization helpers of the deck.gl python binding).

The module is embedded shallowly:

* Python values that can appear as attribute values are modelled by `PyVal`
  (`None`, booleans, ints, strings, lists, dicts).  Python dicts are modelled
  as insertion-ordered association lists with unique keys, mirroring the
  semantics of python 3.7+ dicts (`dictGet`, `dictSet`, `dictDel`).
* Fallible code is modelled with `Except PyErr`.  The only error that the
  module can actually raise during the claims under study is the `NameError`
  produced by evaluating the undefined name `is_array` inside
  `all_numpy_to_list` (the module neither defines nor imports `is_array`).
* `str.upper()` / `str.lower()` on the single characters handled here are
  modelled by `Char.toUpper` / `Char.toLower`, which implement exactly the
  ASCII case mapping python applies to ASCII identifiers.
* Identity/mutation questions (which python object a statement mutates) are
  modelled separately with an explicit heap of dicts (`Heap`), addresses being
  indices; see `default_serialize_st`, `serialize_st` and
  `julia_pycall_compatible_serialize_st` below.
-/

namespace JsonTools

/-- Model of the python values handled by the module: `None`, `bool`, `int`,
`str`, `list` and `dict` (with string keys, as produced by `vars(o)`). -/
inductive PyVal where
  | none
  | bool (b : Bool)
  | int (n : Int)
  | str (s : String)
  | list (xs : List PyVal)
  | dict (entries : List (String × PyVal))

/-- A python dict with string keys: an insertion-ordered association list.
Python guarantees key uniqueness; theorems that need it take a `Nodup`
hypothesis on the key list. -/
abbrev PyDict := List (String × PyVal)

/-- A python object as seen through `vars(o)`: its attribute dict. -/
structure PyObj where
  attrs : PyDict

/-- `d.get(key)` / `d[key]`: first binding of `key` (unique when keys are
nodup). -/
def dictGet : PyDict → String → Option PyVal
  | [], _ => Option.none
  | (k, v) :: rest, key => if k = key then some v else dictGet rest key

/-- `d[key] = v`: update in place when the key exists (keeping its position,
as python dicts do), append otherwise. -/
def dictSet : PyDict → String → PyVal → PyDict
  | [], key, v => [(key, v)]
  | (k, w) :: rest, key, v =>
    if k = key then (k, v) :: rest else (k, w) :: dictSet rest key v

/-- `del d[key]` / `d.pop(key)`: remove the binding of `key` (the first one;
the only one when keys are nodup).  In the module every deletion is guarded
by a successful lookup, so the KeyError path never runs. -/
def dictDel : PyDict → String → PyDict
  | [], _ => []
  | (k, w) :: rest, key =>
    if k = key then rest else (k, w) :: dictDel rest key

/-- `v is None`. -/
def isNone : PyVal → Bool
  | PyVal.none => true
  | _ => false

/-- Python truthiness (`bool(v)`) for the modelled values. -/
def pyTruthy : PyVal → Bool
  | PyVal.none => false
  | PyVal.bool b => b
  | PyVal.int n => !(n == 0)
  | PyVal.str s => !s.isEmpty
  | PyVal.list xs => !xs.isEmpty
  | PyVal.dict es => !es.isEmpty

/-- `IGNORE_KEYS`: attributes to ignore during JSON serialization. -/
def IGNORE_KEYS : List String :=
  ["mapbox_key", "google_maps_key", "deck_widget", "binary_data_sets",
   "_binary_data", "_kwargs"]

/-- One iteration of the `to_camel_case` loop: state is the pair
`(output_str, should_upper_case)`; an underscore is consumed (not emitted) and
arms the flag, any other character is emitted (upper-cased when the flag is
armed) and the flag resets. -/
def tcc_step (acc : List Char × Bool) (c : Char) : List Char × Bool :=
  if c = '_' then (acc.1, true)
  else (acc.1 ++ [if acc.2 then c.toUpper else c], false)

/-- `to_camel_case(snake_case)`: makes a snake case string into a camel case
one; left-to-right scan with the `should_upper_case` flag. -/
def to_camel_case (snake_case : String) : String :=
  String.mk (snake_case.data.foldl tcc_step ([], false)).1

/-- `lower_first_letter(s)`: `s[:1].lower() + s[1:] if s else ""`. -/
def lower_first_letter (s : String) : String :=
  match s.data with
  | [] => ""
  | c :: cs => String.mk (Char.toLower c :: cs)

/-- `camel_and_lower(w) = lower_first_letter(to_camel_case(w))`. -/
def camel_and_lower (w : String) : String :=
  lower_first_letter (to_camel_case w)

/-- The loop body of `lower_camel_case_keys`, iterating over the snapshot
`list(attrs.keys())`.  For each snapshot key containing an underscore the
code runs `attrs[camel_key] = attrs.pop(snake_key)` (pop first, then set).
The lookup cannot fail for a real dict (snapshot keys are dict keys, each
processed once), so the KeyError path is unreachable and modelled as a
skip. -/
def lcck_go : List String → PyDict → PyDict
  | [], attrs => attrs
  | key :: rest, attrs =>
    if '_' ∈ key.data then
      match dictGet attrs key with
      | some v => lcck_go rest (dictSet (dictDel attrs key) (camel_and_lower key) v)
      | Option.none => lcck_go rest attrs
    else lcck_go rest attrs

/-- `lower_camel_case_keys(attrs)`: makes all the keys in a dictionary
camel-cased and lower-case, mutating `attrs` in place; keys without an
underscore are skipped.  `"_" in snake_key` on the single-character needle
`"_"` is character membership. -/
def lower_camel_case_keys (attrs : PyDict) : PyDict :=
  lcck_go (attrs.map Prod.fst) attrs

/-- The filtering comprehension `{k: v for k, v in attrs.items() if v is not
None}` (without the `all_numpy_to_list` mapping; used to state theorems and
as the first step of `default_serialize`). -/
def filterNone (attrs : PyDict) : PyDict :=
  attrs.filter fun kv => !(isNone kv.2)

/-- One iteration of the `IGNORE_KEYS` loop:
`if attrs.get(ignore_attr): del attrs[ignore_attr]` — the deletion happens
only when the looked-up value is truthy (`get` yields `None`, which is falsy,
when the key is absent). -/
def ignore_step (attrs : PyDict) (k : String) : PyDict :=
  match dictGet attrs k with
  | some v => if pyTruthy v then dictDel attrs k else attrs
  | Option.none => attrs

/-- The whole `for ignore_attr in IGNORE_KEYS: ...` loop. -/
def applyIgnore (attrs : PyDict) : PyDict :=
  IGNORE_KEYS.foldl ignore_step attrs

/-- `default_serialize(o, remap_function)`: extract `vars(o)`, drop `None`
values into a fresh dict, run the ignore-keys loop, then the remap function
(when one is given; `remap_function=None` skips it, matching
`if remap_function:`). -/
def default_serialize_with (remap : Option (PyDict → PyDict)) (o : PyObj) : PyDict :=
  let attrs := o.attrs
  let attrs := filterNone attrs
  let attrs := applyIgnore attrs
  match remap with
  | some f => f attrs
  | Option.none => attrs

/-- `default_serialize(o)` with the default `remap_function=lower_camel_case_keys`. -/
def default_serialize (o : PyObj) : PyDict :=
  default_serialize_with (some lower_camel_case_keys) o

/-- The only exception the pipeline under study can raise: the `NameError`
produced by evaluating the name `is_array`, which `json_tools.py` neither
defines nor imports. -/
inductive PyErr where
  | name_error_is_array

mutual
/-- `all_numpy_to_list(obj)` as the module actually executes.  For a dict the
loop `for k, v in obj.items(): obj[k] = all_numpy_to_list(v)` runs first (each
right-hand side is evaluated before the corresponding store, so an exception
escapes before any store happens).  Control then reaches `if is_array(obj):`
— and `is_array` is an undefined name, so the evaluation raises `NameError`
on every path. -/
def all_numpy_to_list : PyVal → Except PyErr PyVal
  | PyVal.dict es =>
    (anl_items es).bind fun _ => Except.error PyErr.name_error_is_array
  | _ => Except.error PyErr.name_error_is_array
/-- The dict loop of `all_numpy_to_list`, value by value in insertion
order. -/
def anl_items : List (String × PyVal) → Except PyErr (List (String × PyVal))
  | [] => Except.ok []
  | (k, v) :: rest =>
    (all_numpy_to_list v).bind fun v1 =>
      (anl_items rest).bind fun rest1 => Except.ok ((k, v1) :: rest1)
end

/-- The comprehension
`{k: all_numpy_to_list(v) for k, v in attrs.items() if v is not None}`:
items are visited in insertion order, the filter runs first, and the first
exception raised by `all_numpy_to_list` escapes. -/
def buildAttrs : List (String × PyVal) → Except PyErr PyDict
  | [] => Except.ok []
  | (k, v) :: rest =>
    if isNone v then buildAttrs rest
    else
      (all_numpy_to_list v).bind fun v1 =>
        (buildAttrs rest).bind fun rest1 => Except.ok ((k, v1) :: rest1)

/-- Python `repr` of a string: the text between single quotes.  (Escaping of
quotes inside the text is not modelled; the claims never exercise it.) -/
def pyReprStr (s : String) : String := "\x27" ++ s ++ "\x27"

mutual
/-- `str(v)` for the modelled values, as python's default container
stringification prints them: `None`, `True`/`False`, decimal ints,
single-quoted strings, `[...]` lists and `{'k': v, ...}` dicts. -/
def pyStr : PyVal → String
  | PyVal.none => "None"
  | PyVal.bool b => if b then "True" else "False"
  | PyVal.int n => toString n
  | PyVal.str s => pyReprStr s
  | PyVal.list xs => "[" ++ pyStrElems xs ++ "]"
  | PyVal.dict es => "\x7b" ++ pyStrEntries es ++ "\x7d"
/-- Comma-separated element list of a python list's `str`. -/
def pyStrElems : List PyVal → String
  | [] => ""
  | [x] => pyStr x
  | x :: xs => pyStr x ++ ", " ++ pyStrElems xs
/-- Comma-separated `'key': value` entry list of a python dict's `str`. -/
def pyStrEntries : List (String × PyVal) → String
  | [] => ""
  | [(k, v)] => pyReprStr k ++ ": " ++ pyStr v
  | (k, v) :: es => pyReprStr k ++ ": " ++ pyStr v ++ ", " ++ pyStrEntries es
end

/-- Does the (nonempty) pattern `key` match at the head of `s`?  This is what
the compiled alternation regex tests at each scan position. -/
def matchesAt : List Char → List Char → Bool
  | [], _ => true
  | _ :: _, [] => false
  | p :: ps, c :: cs => p == c && matchesAt ps cs

/-- At one scan position, try the alternation branches in pattern order and
return the first `(key, replacement)` whose key matches (python's `re`
alternation of escaped literals tries branches left to right at each
position).  Keys are required to be nonempty, which all keys used by the
module are. -/
def findPat : List (List Char × List Char) → List Char → Option (List Char × List Char)
  | [], _ => Option.none
  | (k, v) :: rest, s =>
    if !k.isEmpty && matchesAt k s then some (k, v) else findPat rest s

/-- The single left-to-right pass of `regex.sub`: at each position, if some
pattern key matches, emit its replacement and skip the matched text,
otherwise copy the character and move on.  The first argument counts
characters of a previous match still to be consumed (the scanner resumes
after the matched text). -/
def mrepGo (pats : List (List Char × List Char)) : Nat → List Char → List Char
  | _, [] => []
  | Nat.succ n, _ :: cs => mrepGo pats n cs
  | 0, c :: cs =>
    match findPat pats (c :: cs) with
    | some (k, v) => v ++ mrepGo pats (k.length - 1) cs
    | Option.none => c :: mrepGo pats 0 cs

/-- The whole substitution pass over a character list. -/
def mrep (pats : List (List Char × List Char)) (s : List Char) : List Char :=
  mrepGo pats 0 s

/-- `multiple_replace(patterns, text)`: regex replace for multiple patterns —
one pass of the combined alternation `(k1|k2|...)` over `text`, each match
replaced by its mapped value. -/
def multiple_replace (patterns : List (String × String)) (text : String) : String :=
  String.mk (mrep (patterns.map fun p => (p.1.data, p.2.data)) text.data)

/-- The dialect pattern table of `julia_pycall_compatible_serialize`:
single quote to double quote, `False` to `false`, `True` to `true`. -/
def dialect_patterns : List (String × String) :=
  [("\x27", "\""), ("False", "false"), ("True", "true")]

/-- The same table at the `List Char` level, as `multiple_replace` compiles
it. -/
def dpats : List (List Char × List Char) :=
  dialect_patterns.map fun p => (p.1.data, p.2.data)

/-- `julia_pycall_compatible_serialize(serializable, remap_function)`:
extract `vars`, build the filtered/converted dict (which raises as soon as
`all_numpy_to_list` runs on some non-`None` value), run the ignore-keys loop
and the remap function, then `multiple_replace(patterns, str(attrs))`. -/
def julia_pycall_compatible_serialize_with (remap : Option (PyDict → PyDict))
    (o : PyObj) : Except PyErr String :=
  match buildAttrs o.attrs with
  | Except.error e => Except.error e
  | Except.ok attrs =>
    let attrs := applyIgnore attrs
    let attrs := match remap with
      | some f => f attrs
      | Option.none => attrs
    Except.ok (multiple_replace dialect_patterns (pyStr (PyVal.dict attrs)))

/-- `julia_pycall_compatible_serialize(serializable)` with the default
`remap_function=lower_camel_case_keys`. -/
def julia_pycall_compatible_serialize (o : PyObj) : Except PyErr String :=
  julia_pycall_compatible_serialize_with (some lower_camel_case_keys) o

/-- Insertion sort step for rendered dict entries (used to model
`json.dumps(..., sort_keys=True)`). -/
def insertSorted (x : String) : List String → List String
  | [] => [x]
  | y :: ys => if x ≤ y then x :: y :: ys else y :: insertSorted x ys

/-- Sort rendered entries; for the escape-free keys handled here this orders
entries alphabetically by key, as `sort_keys=True` does. -/
def sortStrings (l : List String) : List String := l.foldr insertSorted []

mutual
/-- `json.dumps(v, sort_keys=True)` for the modelled values: `null`,
`true`/`false`, decimal numbers, double-quoted strings (escaping not
modelled), arrays, and objects with alphabetically sorted keys. -/
def jsonVal : PyVal → String
  | PyVal.none => "null"
  | PyVal.bool b => if b then "true" else "false"
  | PyVal.int n => toString n
  | PyVal.str s => "\"" ++ s ++ "\""
  | PyVal.list xs => "[" ++ String.intercalate (", ") (jsonElems xs) ++ "]"
  | PyVal.dict es =>
    "\x7b" ++ String.intercalate (", ") (sortStrings (jsonPairs es)) ++ "\x7d"
/-- Rendered elements of a JSON array. -/
def jsonElems : List PyVal → List String
  | [] => []
  | x :: xs => jsonVal x :: jsonElems xs
/-- Rendered `"key": value` pairs of a JSON object. -/
def jsonPairs : List (String × PyVal) → List String
  | [] => []
  | (k, v) :: es => ("\"" ++ k ++ "\": " ++ jsonVal v) :: jsonPairs es
end

/-- `serialize(serializable)`: `json.dumps(serializable, sort_keys=True,
default=default_serialize)` — the encoder meets the non-JSON-native object,
calls the `default_serialize` hook on it, and encodes the resulting dict
(whose values are JSON-representable in this model). -/
def serialize (o : PyObj) : String :=
  jsonVal (PyVal.dict (default_serialize o))

/-- `JSONMixin.__repr__(self)`: returns
`julia_pycall_compatible_serialize(self)`. -/
def JSONMixin_repr (o : PyObj) : Except PyErr String :=
  julia_pycall_compatible_serialize o

/-- `JSONMixin.to_json(self)`: returns
`julia_pycall_compatible_serialize(self)`. -/
def JSONMixin_to_json (o : PyObj) : Except PyErr String :=
  julia_pycall_compatible_serialize o

/-- A heap of python dict objects; an address is an index into the list.
Used to settle identity/mutation (frame) questions: `vars(o)` returns the
object's own `__dict__` (an alias, not a copy), so whether the serializers
mutate the source object is a question about which address each in-place
statement targets. -/
abbrev Heap := List PyDict

/-- Read the dict stored at address `a`. -/
def readD (h : Heap) (a : Nat) : PyDict := h.getD a []

/-- Store dict `d` at address `a`. -/
def writeD (h : Heap) (a : Nat) (d : PyDict) : Heap := h.set a d

/-- `default_serialize` at the store level.  `attrs = vars(o)` aliases the
dict at address `a`; the comprehension `attrs = {k: v for ...}` rebinds
`attrs` to a freshly allocated dict at address `h.length`; the ignore-keys
loop and the in-place remap then only ever store to that fresh address.
Returns the final heap and the address of the extracted dict. -/
def default_serialize_st (a : Nat) (h : Heap) : Heap × Nat :=
  let a1 := h.length
  let h1 := h ++ [filterNone (readD h a)]
  let h2 := writeD h1 a1 (applyIgnore (readD h1 a1))
  let h3 := writeD h2 a1 (lower_camel_case_keys (readD h2 a1))
  (h3, a1)

/-- `serialize` at the store level: run the `default_serialize` hook on the
object, then encode the resulting dict. -/
def serialize_st (a : Nat) (h : Heap) : Heap × String :=
  let r := default_serialize_st a h
  (r.1, jsonVal (PyVal.dict (readD r.1 r.2)))

/-- `julia_pycall_compatible_serialize` at the store level.  The
comprehension evaluates `all_numpy_to_list` on each retained value before any
new dict is bound; when it raises, the partially built dict is discarded and
no existing dict has been stored to (`all_numpy_to_list` raises its
`NameError` before executing any `obj[k] = ...` store).  On the (empty
filtered dict) success path the fresh dict is allocated at `h.length` and all
later in-place updates target it. -/
def julia_pycall_compatible_serialize_st (a : Nat) (h : Heap) :
    Heap × Except PyErr String :=
  match buildAttrs (readD h a) with
  | Except.error e => (h, Except.error e)
  | Except.ok d1 =>
    let a1 := h.length
    let h1 := h ++ [d1]
    let h2 := writeD h1 a1 (applyIgnore (readD h1 a1))
    let h3 := writeD h2 a1 (lower_camel_case_keys (readD h2 a1))
    (h3, Except.ok (multiple_replace dialect_patterns (pyStr (PyVal.dict (readD h3 a1)))))

/-- Does `pat` occur as a contiguous substring of `s`?  (Scan all start
positions with `matchesAt`.) -/
def hasSub (pat : List Char) : List Char → Bool
  | [] => matchesAt pat []
  | c :: cs => matchesAt pat (c :: cs) || hasSub pat cs

/-! Helper lemmas. -/

theorem char_toNat_ofNat (n : Nat) (h : n.isValidChar) : (Char.ofNat n).toNat = n := by
  simp only [Char.ofNat, dif_pos h, Char.ofNatAux, Char.toNat]
  simp [UInt32.toNat]

theorem toUpper_ne_underscore (c : Char) (h : c ≠ '_') : c.toUpper ≠ '_' := by
  show (if c.toNat ≥ 97 ∧ c.toNat ≤ 122 then Char.ofNat (c.toNat - 32) else c) ≠ '_'
  split
  · rename_i hrange
    intro heq
    have hv : (c.toNat - 32).isValidChar := Or.inl (by omega)
    have h2 := congrArg Char.toNat heq
    rw [char_toNat_ofNat _ hv] at h2
    have h3 : Char.toNat '_' = 95 := by decide
    omega
  · exact h

theorem toLower_ne_underscore (c : Char) (h : c ≠ '_') : c.toLower ≠ '_' := by
  show (if c.toNat ≥ 65 ∧ c.toNat ≤ 90 then Char.ofNat (c.toNat + 32) else c) ≠ '_'
  split
  · rename_i hrange
    intro heq
    have hv : (c.toNat + 32).isValidChar := Or.inl (by omega)
    have h2 := congrArg Char.toNat heq
    rw [char_toNat_ofNat _ hv] at h2
    have h3 : Char.toNat '_' = 95 := by decide
    omega
  · exact h

theorem tcc_no_underscore (l : List Char) :
    ∀ (acc : List Char) (b : Bool), '_' ∉ acc → '_' ∉ (l.foldl tcc_step (acc, b)).1 := by
  induction l with
  | nil => intro acc b h; simpa using h
  | cons c l ih =>
    intro acc b h
    by_cases hc : c = '_'
    · simpa [List.foldl_cons, tcc_step, hc] using ih acc true h
    · have hstep : tcc_step (acc, b) c = (acc ++ [if b then c.toUpper else c], false) := by
        simp [tcc_step, hc]
      rw [List.foldl_cons, hstep]
      refine ih _ false ?_
      intro hmem
      rcases List.mem_append.mp hmem with h1 | h2
      · exact h h1
      · have : (if b then c.toUpper else c) = '_' := (List.mem_singleton.mp h2).symm
        cases b with
        | true => exact toUpper_ne_underscore c hc (by simpa using this)
        | false => exact hc (by simpa using this)

theorem to_camel_case_no_underscore (s : String) : '_' ∉ (to_camel_case s).data := by
  simpa [to_camel_case] using tcc_no_underscore s.data [] false (by simp)

theorem camel_and_lower_no_underscore (w : String) : '_' ∉ (camel_and_lower w).data := by
  have h := to_camel_case_no_underscore w
  unfold camel_and_lower lower_first_letter
  rcases hd : (to_camel_case w).data with _ | ⟨c, cs⟩
  · simp
  · rw [hd] at h
    simp only [String.data]
    intro hmem
    rcases List.mem_cons.mp hmem with h1 | h2
    · exact toLower_ne_underscore c (fun he => h (by simp [he])) h1.symm
    · exact h (by simp [h2])

theorem dictGet_del_ne (d : PyDict) (key k : String) (h : k ≠ key) :
    dictGet (dictDel d key) k = dictGet d k := by
  have hne : ¬(key = k) := fun he => h he.symm
  induction d with
  | nil => rfl
  | cons kv rest ih =>
    obtain ⟨k0, v0⟩ := kv
    by_cases h0 : k0 = key
    · simp [dictDel, dictGet, h0, hne]
    · by_cases h1 : k0 = k <;> simp [dictDel, dictGet, h0, h1, ih, h]

theorem dictGet_eq_none_iff (d : PyDict) (k : String) :
    dictGet d k = Option.none ↔ k ∉ d.map Prod.fst := by
  induction d with
  | nil => simp [dictGet]
  | cons kv rest ih =>
    obtain ⟨k0, v0⟩ := kv
    by_cases h0 : k0 = k
    · simp [dictGet, h0]
    · have hne : ¬(k = k0) := fun he => h0 he.symm
      simp [dictGet, h0, ih, hne]

theorem dictGet_del_self (d : PyDict) (k : String)
    (hnd : (d.map Prod.fst).Nodup) : dictGet (dictDel d k) k = Option.none := by
  induction d with
  | nil => rfl
  | cons kv rest ih =>
    obtain ⟨k0, v0⟩ := kv
    simp only [List.map_cons, List.nodup_cons] at hnd
    by_cases h0 : k0 = k
    · simp only [dictDel, if_pos h0]
      exact (dictGet_eq_none_iff rest k).mpr (h0 ▸ hnd.1)
    · simp [dictDel, dictGet, h0, ih hnd.2]

theorem dictGet_set_ne (d : PyDict) (key : String) (v : PyVal) (k : String)
    (h : k ≠ key) : dictGet (dictSet d key v) k = dictGet d k := by
  have hne : ¬(key = k) := fun he => h he.symm
  induction d with
  | nil => simp [dictSet, dictGet, hne]
  | cons kv rest ih =>
    obtain ⟨k0, v0⟩ := kv
    by_cases h0 : k0 = key
    · simp [dictSet, dictGet, h0, hne]
    · by_cases h1 : k0 = k <;> simp [dictSet, dictGet, h0, h1, ih, h]

theorem keys_dictDel_sublist (d : PyDict) (k : String) :
    ((dictDel d k).map Prod.fst).Sublist (d.map Prod.fst) := by
  induction d with
  | nil => simp [dictDel]
  | cons kv rest ih =>
    obtain ⟨k0, v0⟩ := kv
    by_cases h0 : k0 = k
    · simp only [dictDel, if_pos h0]
      exact List.sublist_cons_self k0 (rest.map Prod.fst)
    · simpa [dictDel, h0] using ih.cons₂ k0

theorem nodup_dictDel (d : PyDict) (k : String) (hnd : (d.map Prod.fst).Nodup) :
    ((dictDel d k).map Prod.fst).Nodup :=
  (keys_dictDel_sublist d k).nodup hnd

theorem mem_keys_dictSet (d : PyDict) (key : String) (v : PyVal) (x : String)
    (hx : x ∈ (dictSet d key v).map Prod.fst) : x ∈ d.map Prod.fst ∨ x = key := by
  induction d with
  | nil => simpa [dictSet] using hx
  | cons kv rest ih =>
    obtain ⟨k0, v0⟩ := kv
    by_cases h0 : k0 = key
    · simp only [dictSet, if_pos h0, List.map_cons, List.mem_cons] at hx
      rcases hx with hx | hx
      · exact Or.inl (by simp [hx])
      · exact Or.inl (by simp only [List.map_cons, List.mem_cons]; exact Or.inr hx)
    · simp only [dictSet, if_neg h0, List.map_cons, List.mem_cons] at hx
      rcases hx with hx | hx
      · exact Or.inl (by simp [hx])
      · rcases ih hx with h | h
        · exact Or.inl (by simp only [List.map_cons, List.mem_cons]; exact Or.inr h)
        · exact Or.inr h

theorem nodup_dictSet (d : PyDict) (key : String) (v : PyVal)
    (hnd : (d.map Prod.fst).Nodup) : ((dictSet d key v).map Prod.fst).Nodup := by
  induction d with
  | nil => simp [dictSet]
  | cons kv rest ih =>
    obtain ⟨k0, v0⟩ := kv
    simp only [List.map_cons, List.nodup_cons] at hnd
    by_cases h0 : k0 = key
    · simp only [dictSet, if_pos h0, List.map_cons, List.nodup_cons]
      exact ⟨hnd.1, hnd.2⟩
    · simp only [dictSet, if_neg h0, List.map_cons, List.nodup_cons]
      refine ⟨fun hmem => ?_, ih hnd.2⟩
      rcases mem_keys_dictSet rest key v k0 hmem with h | h
      · exact hnd.1 h
      · exact h0 h

theorem get_ignore_step_ne (d : PyDict) (key k : String) (h : k ≠ key) :
    dictGet (ignore_step d key) k = dictGet d k := by
  unfold ignore_step
  rcases dictGet d key with _ | v
  · rfl
  · dsimp only
    split
    · exact dictGet_del_ne d key k h
    · rfl

theorem nodup_ignore_step (d : PyDict) (key : String)
    (hnd : (d.map Prod.fst).Nodup) : ((ignore_step d key).map Prod.fst).Nodup := by
  unfold ignore_step
  rcases dictGet d key with _ | v
  · exact hnd
  · dsimp only
    split
    · exact nodup_dictDel d key hnd
    · exact hnd

theorem get_ignore_step_self (d : PyDict) (k : String)
    (hnd : (d.map Prod.fst).Nodup) :
    dictGet (ignore_step d k) k =
      (match dictGet d k with
       | some v => if pyTruthy v then Option.none else some v
       | Option.none => Option.none) := by
  unfold ignore_step
  rcases hg : dictGet d k with _ | v
  · exact hg
  · dsimp only
    split
    · exact dictGet_del_self d k hnd
    · exact hg

theorem foldl_ignore_not_mem (L : List String) (d : PyDict) (k : String)
    (hk : k ∉ L) : dictGet (L.foldl ignore_step d) k = dictGet d k := by
  induction L generalizing d with
  | nil => rfl
  | cons k0 L ih =>
    rw [List.foldl_cons]
    have hne : k ≠ k0 := fun he => hk (he ▸ List.mem_cons_self k0 L)
    rw [ih (ignore_step d k0) (fun hm => hk (List.mem_cons_of_mem k0 hm))]
    exact get_ignore_step_ne d k0 k hne

theorem nodup_foldl_ignore (L : List String) (d : PyDict)
    (hnd : (d.map Prod.fst).Nodup) :
    (((L.foldl ignore_step d)).map Prod.fst).Nodup := by
  induction L generalizing d with
  | nil => exact hnd
  | cons k0 L ih => exact ih (ignore_step d k0) (nodup_ignore_step d k0 hnd)

theorem foldl_ignore_get (L : List String) (d : PyDict) (k : String)
    (hnd : (d.map Prod.fst).Nodup) (hL : L.Nodup) (hk : k ∈ L) :
    dictGet (L.foldl ignore_step d) k =
      (match dictGet d k with
       | some v => if pyTruthy v then Option.none else some v
       | Option.none => Option.none) := by
  induction L generalizing d with
  | nil => cases hk
  | cons k0 L ih =>
    rw [List.foldl_cons]
    simp only [List.nodup_cons] at hL
    by_cases he : k = k0
    · subst he
      rw [foldl_ignore_not_mem L (ignore_step d k) k hL.1]
      exact get_ignore_step_self d k hnd
    · have hmem : k ∈ L := by
        rcases List.mem_cons.mp hk with h | h
        · exact absurd h he
        · exact h
      rw [ih (ignore_step d k0) (nodup_ignore_step d k0 hnd) hL.2 hmem]
      rw [get_ignore_step_ne d k0 k he]

theorem lcck_go_noop (ks : List String) (d : PyDict)
    (h : ∀ k ∈ ks, '_' ∉ k.data) : lcck_go ks d = d := by
  induction ks with
  | nil => rfl
  | cons k0 ks ih =>
    have h0 : '_' ∉ k0.data := h k0 (List.mem_cons_self k0 ks)
    simp only [lcck_go, if_neg h0]
    exact ih (fun k hk => h k (List.mem_cons_of_mem k0 hk))

theorem lcck_go_get (ks : List String) (d : PyDict) (k : String)
    (hk : '_' ∉ k.data)
    (hcol : ∀ k2 ∈ ks, '_' ∈ k2.data → camel_and_lower k2 ≠ k) :
    dictGet (lcck_go ks d) k = dictGet d k := by
  induction ks generalizing d with
  | nil => rfl
  | cons k0 ks ih =>
    have hcol0 := fun hu => hcol k0 (List.mem_cons_self k0 ks) hu
    have hcoltail : ∀ k2 ∈ ks, '_' ∈ k2.data → camel_and_lower k2 ≠ k :=
      fun k2 hk2 => hcol k2 (List.mem_cons_of_mem k0 hk2)
    by_cases hu : '_' ∈ k0.data
    · simp only [lcck_go, if_pos hu]
      rcases hg : dictGet d k0 with _ | v
      · exact ih d hcoltail
      · show dictGet (lcck_go ks (dictSet (dictDel d k0) (camel_and_lower k0) v)) k =
          dictGet d k
        rw [ih _ hcoltail]
        have hne0 : k ≠ k0 := fun he => hk (he ▸ hu)
        rw [dictGet_set_ne _ _ _ _ (fun he => hcol0 hu he.symm)]
        exact dictGet_del_ne d k0 k hne0
    · simp only [lcck_go, if_neg hu]
      exact ih d hcoltail

theorem lcck_go_keys_no_underscore (ks : List String) (d : PyDict)
    (hnd : (d.map Prod.fst).Nodup)
    (hinv : ∀ key ∈ d.map Prod.fst, '_' ∉ key.data ∨ key ∈ ks) :
    ∀ key ∈ (lcck_go ks d).map Prod.fst, '_' ∉ key.data := by
  induction ks generalizing d with
  | nil =>
    intro key hkey
    rcases hinv key hkey with h | h
    · exact h
    · cases h
  | cons k0 ks ih =>
    by_cases hu : '_' ∈ k0.data
    · simp only [lcck_go, if_pos hu]
      rcases hg : dictGet d k0 with _ | v
      · show ∀ key ∈ (lcck_go ks d).map Prod.fst, '_' ∉ key.data
        refine ih d hnd (fun key hkey => ?_)
        rcases hinv key hkey with h | h
        · exact Or.inl h
        · rcases List.mem_cons.mp h with h | h
          · subst h
            exact absurd hkey ((dictGet_eq_none_iff d key).mp hg)
          · exact Or.inr h
      · show ∀ key ∈ (lcck_go ks (dictSet (dictDel d k0) (camel_and_lower k0) v)).map
            Prod.fst, '_' ∉ key.data
        set d1 := dictSet (dictDel d k0) (camel_and_lower k0) v with hd1
        have hnd1 : (d1.map Prod.fst).Nodup :=
          nodup_dictSet _ _ _ (nodup_dictDel d k0 hnd)
        refine ih d1 hnd1 (fun key hkey => ?_)
        rcases mem_keys_dictSet _ _ _ _ hkey with h | h
        · have hmem : key ∈ d.map Prod.fst :=
            (keys_dictDel_sublist d k0).subset h
          have hne : key ≠ k0 := by
            intro he
            subst he
            have : dictGet (dictDel d key) key = Option.none :=
              dictGet_del_self d key hnd
            exact ((dictGet_eq_none_iff _ key).mp this) h
          rcases hinv key hmem with h2 | h2
          · exact Or.inl h2
          · rcases List.mem_cons.mp h2 with h2 | h2
            · exact absurd h2 hne
            · exact Or.inr h2
        · subst h
          exact Or.inl (camel_and_lower_no_underscore k0)
    · simp only [lcck_go, if_neg hu]
      refine ih d hnd (fun key hkey => ?_)
      rcases hinv key hkey with h | h
      · exact Or.inl h
      · rcases List.mem_cons.mp h with h | h
        · subst h
          exact Or.inl hu
        · exact Or.inr h

theorem anl_raises (v : PyVal) :
    all_numpy_to_list v = Except.error PyErr.name_error_is_array := by
  cases v with
  | dict es =>
    rcases h : anl_items es with e | es1
    · cases e
      simp [all_numpy_to_list, h, Except.bind]
    · simp [all_numpy_to_list, h, Except.bind]
  | none => rfl
  | bool b => rfl
  | int n => rfl
  | str s => rfl
  | list xs => rfl

theorem buildAttrs_spec (attrs : PyDict) :
    buildAttrs attrs =
      if (filterNone attrs).isEmpty then Except.ok ([] : PyDict)
      else Except.error PyErr.name_error_is_array := by
  induction attrs with
  | nil => rfl
  | cons kv rest ih =>
    obtain ⟨k, v⟩ := kv
    by_cases hn : isNone v = true
    · simp only [buildAttrs, if_pos hn, filterNone, List.filter_cons, hn]
      simpa [filterNone] using ih
    · have hn2 : isNone v = false := by
        cases h : isNone v
        · rfl
        · exact absurd h hn
      simp only [buildAttrs, hn2, Bool.false_eq_true, if_false, anl_raises v,
        Except.bind, filterNone, List.filter_cons, hn2]
      simp

theorem dpats_eq :
    dpats = [(['\x27'], ['"']),
             (['F', 'a', 'l', 's', 'e'], ['f', 'a', 'l', 's', 'e']),
             (['T', 'r', 'u', 'e'], ['t', 'r', 'u', 'e'])] := rfl

theorem mrepGo_skip (pats : List (List Char × List Char)) :
    ∀ (s : List Char) (n : Nat), mrepGo pats n s = mrepGo pats 0 (s.drop n) := by
  intro s
  induction s with
  | nil => intro n; cases n <;> rfl
  | cons c cs ih =>
    intro n
    cases n with
    | zero => rfl
    | succ n => exact ih n

theorem findPat_dpats_some (s k v : List Char)
    (h : findPat dpats s = some (k, v)) :
    (k = ['\x27'] ∧ v = ['"'] ∧ matchesAt k s = true) ∨
    (k = ['F', 'a', 'l', 's', 'e'] ∧ v = ['f', 'a', 'l', 's', 'e'] ∧ matchesAt k s = true) ∨
    (k = ['T', 'r', 'u', 'e'] ∧ v = ['t', 'r', 'u', 'e'] ∧ matchesAt k s = true) := by
  rw [dpats_eq] at h
  simp only [findPat, List.isEmpty_cons, Bool.not_false, Bool.true_and] at h
  split at h
  · rename_i hm
    injection h with h2
    injection h2 with hk hv
    subst hk
    subst hv
    exact Or.inl ⟨rfl, rfl, hm⟩
  split at h
  · rename_i hm
    injection h with h2
    injection h2 with hk hv
    subst hk
    subst hv
    exact Or.inr (Or.inl ⟨rfl, rfl, hm⟩)
  split at h
  · rename_i hm
    injection h with h2
    injection h2 with hk hv
    subst hk
    subst hv
    exact Or.inr (Or.inr ⟨rfl, rfl, hm⟩)
  · cases h

theorem findPat_dpats_none (s : List Char) (h : findPat dpats s = Option.none) :
    matchesAt ['\x27'] s = false ∧
    matchesAt ['F', 'a', 'l', 's', 'e'] s = false ∧
    matchesAt ['T', 'r', 'u', 'e'] s = false := by
  rw [dpats_eq] at h
  simp only [findPat, List.isEmpty_cons, Bool.not_false, Bool.true_and] at h
  split at h
  · cases h
  split at h
  · cases h
  split at h
  · cases h
  rename_i h1 h2 h3
  exact ⟨Bool.eq_false_iff.mpr h1, Bool.eq_false_iff.mpr h2, Bool.eq_false_iff.mpr h3⟩

theorem matchesAt_transfer : ∀ (w s : List Char),
    (∀ x ∈ w, x ≠ '"' ∧ x ≠ 'f' ∧ x ≠ 't') →
    matchesAt w (mrep dpats s) = true → matchesAt w s = true := by
  intro w
  induction w with
  | nil => intro s _ _; rfl
  | cons x w ih =>
    intro s hw hm
    cases s with
    | nil => simp [mrep, mrepGo, matchesAt] at hm
    | cons c cs =>
      rcases hfp : findPat dpats (c :: cs) with _ | ⟨k, v⟩
      · have hred : mrep dpats (c :: cs) = c :: mrep dpats cs := by
          simp [mrep, mrepGo, hfp]
        rw [hred] at hm
        simp only [matchesAt, Bool.and_eq_true, beq_iff_eq] at hm ⊢
        exact ⟨hm.1, ih cs (fun y hy => hw y (List.mem_cons_of_mem x hy)) hm.2⟩
      · have hred : mrep dpats (c :: cs) = v ++ mrepGo dpats (k.length - 1) cs := by
          simp [mrep, mrepGo, hfp]
        rw [hred] at hm
        have hx := hw x (List.mem_cons_self x w)
        rcases findPat_dpats_some _ _ _ hfp with ⟨hk, hv, hmk⟩ | ⟨hk, hv, hmk⟩ | ⟨hk, hv, hmk⟩
        · subst hv
          simp only [List.cons_append, matchesAt, Bool.and_eq_true, beq_iff_eq] at hm
          exact absurd hm.1 hx.1
        · subst hv
          simp only [List.cons_append, matchesAt, Bool.and_eq_true, beq_iff_eq] at hm
          exact absurd hm.1 hx.2.1
        · subst hv
          simp only [List.cons_append, matchesAt, Bool.and_eq_true, beq_iff_eq] at hm
          exact absurd hm.1 hx.2.2

theorem hasSub_append_head (p : Char) (ps : List Char) (v r : List Char)
    (hv : ∀ x ∈ v, x ≠ p) (hr : hasSub (p :: ps) r = false) :
    hasSub (p :: ps) (v ++ r) = false := by
  induction v with
  | nil => simpa using hr
  | cons a v ih =>
    have ha : a ≠ p := hv a (List.mem_cons_self a v)
    have hpa : ¬(p = a) := fun he => ha he.symm
    simp only [List.cons_append, hasSub, Bool.or_eq_false_iff]
    refine ⟨?_, ih (fun x hx => hv x (List.mem_cons_of_mem a hx))⟩
    simp [matchesAt, beq_iff_eq, hpa]

theorem mrep_dpats_clean : ∀ (n : Nat) (s : List Char), s.length ≤ n →
    hasSub ['\x27'] (mrep dpats s) = false ∧
    hasSub ['F', 'a', 'l', 's', 'e'] (mrep dpats s) = false ∧
    hasSub ['T', 'r', 'u', 'e'] (mrep dpats s) = false := by
  intro n
  induction n with
  | zero =>
    intro s hs
    have hnil : s = [] := List.eq_nil_of_length_eq_zero (Nat.le_zero.mp hs)
    subst hnil
    exact ⟨rfl, rfl, rfl⟩
  | succ n ih =>
    intro s hs
    cases s with
    | nil => exact ⟨rfl, rfl, rfl⟩
    | cons c cs =>
      have hlen : cs.length ≤ n := by
        simp only [List.length_cons] at hs
        omega
      rcases hfp : findPat dpats (c :: cs) with _ | ⟨k, v⟩
      · -- no pattern matches at this position: copy `c`
        have hred : mrep dpats (c :: cs) = c :: mrep dpats cs := by
          simp [mrep, mrepGo, hfp]
        obtain ⟨h1, h2, h3⟩ := ih cs hlen
        have hnm := findPat_dpats_none (c :: cs) hfp
        rw [hred]
        refine ⟨?_, ?_, ?_⟩
        · simp only [hasSub, Bool.or_eq_false_iff]
          refine ⟨?_, h1⟩
          simpa [matchesAt] using hnm.1
        · simp only [hasSub, Bool.or_eq_false_iff]
          refine ⟨?_, h2⟩
          cases hm : matchesAt ['F', 'a', 'l', 's', 'e'] (c :: mrep dpats cs)
          · rfl
          · exfalso
            simp only [matchesAt, Bool.and_eq_true, beq_iff_eq] at hm
            have htr := matchesAt_transfer ['a', 'l', 's', 'e'] cs (by decide) hm.2
            have hfull : matchesAt ['F', 'a', 'l', 's', 'e'] (c :: cs) = true := by
              simp only [matchesAt, Bool.and_eq_true, beq_iff_eq]
              exact ⟨hm.1, htr⟩
            rw [hnm.2.1] at hfull
            cases hfull
        · simp only [hasSub, Bool.or_eq_false_iff]
          refine ⟨?_, h3⟩
          cases hm : matchesAt ['T', 'r', 'u', 'e'] (c :: mrep dpats cs)
          · rfl
          · exfalso
            simp only [matchesAt, Bool.and_eq_true, beq_iff_eq] at hm
            have htr := matchesAt_transfer ['r', 'u', 'e'] cs (by decide) hm.2
            have hfull : matchesAt ['T', 'r', 'u', 'e'] (c :: cs) = true := by
              simp only [matchesAt, Bool.and_eq_true, beq_iff_eq]
              exact ⟨hm.1, htr⟩
            rw [hnm.2.2] at hfull
            cases hfull
      · -- a pattern matches: its replacement is emitted, the match consumed
        have hred : mrep dpats (c :: cs) =
            v ++ mrep dpats (cs.drop (k.length - 1)) := by
          simp only [mrep, mrepGo, hfp]
          rw [mrepGo_skip dpats cs (k.length - 1)]
        have hlen2 : (cs.drop (k.length - 1)).length ≤ n := by
          rw [List.length_drop]
          omega
        obtain ⟨h1, h2, h3⟩ := ih (cs.drop (k.length - 1)) hlen2
        rw [hred]
        rcases findPat_dpats_some _ _ _ hfp with ⟨hk, hv, hmk⟩ | ⟨hk, hv, hmk⟩ | ⟨hk, hv, hmk⟩ <;>
          subst hv <;>
          exact ⟨hasSub_append_head '\x27' [] _ _ (by decide) h1,
                 hasSub_append_head 'F' ['a', 'l', 's', 'e'] _ _ (by decide) h2,
                 hasSub_append_head 'T' ['r', 'u', 'e'] _ _ (by decide) h3⟩

/-! Claim theorems. -/

/-- C1: `is_array` is never defined or imported, so `all_numpy_to_list v`
raises `NameError` for every input `v`, and consequently
`julia_pycall_compatible_serialize(obj)` raises whenever some attribute value
is not `None`, returning the substituted text of the empty mapping exactly
when the `None`-filtered attribute mapping is empty. -/
theorem julia_serialize_raises_unless_empty :
    (∀ v : PyVal, all_numpy_to_list v = Except.error PyErr.name_error_is_array) ∧
    (∀ o : PyObj, julia_pycall_compatible_serialize o =
      if (filterNone o.attrs).isEmpty then Except.ok ("\x7b\x7d")
      else Except.error PyErr.name_error_is_array) := by
  refine ⟨anl_raises, fun o => ?_⟩
  unfold julia_pycall_compatible_serialize julia_pycall_compatible_serialize_with
  rw [buildAttrs_spec]
  cases h : (filterNone o.attrs).isEmpty
  · simp only [Bool.false_eq_true, if_false]
  · simp only [if_true]
    rfl

/-- C2: the spec's Array Normalizer contract says `normalize(5)` returns `5`
unchanged; the code's `all_numpy_to_list(5)` instead raises `NameError`
because `is_array` is an undefined name (contradicting the function's own
docstring, which promises array-to-list conversion). -/
theorem all_numpy_to_list_scalar_raises :
    all_numpy_to_list (PyVal.int 5) = Except.error PyErr.name_error_is_array := rfl

/-- C3: the spec says `serializeDialect` returns a clean parseable string for
an object whose string fields contain no risky substrings; on the object with
attribute dict `{label: "hello"}` (which has none) the code raises `NameError`
instead of returning any string, because `all_numpy_to_list` evaluates the
undefined name `is_array`. -/
theorem julia_serialize_string_field_raises :
    julia_pycall_compatible_serialize ⟨[(("label" : String), PyVal.str ("hello"))]⟩ =
      Except.error PyErr.name_error_is_array := rfl

/-- C4 counterexample: a block-listed attribute whose value is falsy but not
`None` is NOT excluded — with `remap_function=None` the key `mapbox_key`
survives with its value `0`, and with the default remap the value survives
under the camel-cased key.  This refutes exclusion "regardless of value". -/
theorem default_serialize_blocklist_counterexample :
    default_serialize_with Option.none ⟨[(("mapbox_key" : String), PyVal.int 0)]⟩ =
      [(("mapbox_key" : String), PyVal.int 0)] ∧
    default_serialize ⟨[(("mapbox_key" : String), PyVal.int 0)]⟩ =
      [(("mapboxKey" : String), PyVal.int 0)] := ⟨rfl, rfl⟩

/-- C4 amended: the Attribute Filter (`default_serialize` with
`remap_function=None`) removes a block-listed key exactly when its
`None`-filtered value is truthy; a falsy-but-not-`None` value (such as `0`,
`""`, `[]`) is retained. -/
theorem default_serialize_blocklist_truthy_only (o : PyObj) (k : String)
    (hnd : ((o.attrs.map Prod.fst)).Nodup) (hk : k ∈ IGNORE_KEYS) :
    dictGet (default_serialize_with Option.none o) k =
      (match dictGet (filterNone o.attrs) k with
       | some v => if pyTruthy v then Option.none else some v
       | Option.none => Option.none) := by
  have hnd2 : ((filterNone o.attrs).map Prod.fst).Nodup :=
    ((List.filter_sublist o.attrs).map Prod.fst).nodup hnd
  have hIK : IGNORE_KEYS.Nodup := by decide
  exact foldl_ignore_get IGNORE_KEYS (filterNone o.attrs) k hnd2 hIK hk

/-- C4 witness: at the counterexample object the amended theorem yields the
retained falsy binding. -/
theorem default_serialize_blocklist_truthy_only_witness :
    dictGet (default_serialize_with Option.none
      ⟨[(("mapbox_key" : String), PyVal.int 0)]⟩) ("mapbox_key") =
      some (PyVal.int 0) :=
  default_serialize_blocklist_truthy_only
    ⟨[(("mapbox_key" : String), PyVal.int 0)]⟩ ("mapbox_key")
    (by decide) (by decide)

/-- C5: on the object with attributes `{a: None, b: 5, mapbox_key: "secret",
c: 0}`, `default_serialize` yields exactly `{b: 5, c: 0}`: the `None` entry is
dropped, the truthy block-listed entry is dropped, and the zero-valued
non-block-listed entry is kept (its key has no underscore, so the remap leaves
it alone). -/
theorem default_serialize_example :
    default_serialize ⟨[(("a" : String), PyVal.none), (("b" : String), PyVal.int 5),
        (("mapbox_key" : String), PyVal.str ("secret")), (("c" : String), PyVal.int 0)]⟩ =
      [(("b" : String), PyVal.int 5), (("c" : String), PyVal.int 0)] := rfl

/-- C7 counterexample: `lower_camel_case_keys` does NOT leave every
underscore-free key's binding unchanged: on `{aB: 1, a_b: 2}` the renaming of
`a_b` to `aB` overwrites the existing binding of the underscore-free key
`aB` (last-write-wins). -/
theorem lower_camel_case_keys_counterexample :
    dictGet [(("aB" : String), PyVal.int 1), (("a_b" : String), PyVal.int 2)] ("aB") =
      some (PyVal.int 1) ∧
    dictGet (lower_camel_case_keys
        [(("aB" : String), PyVal.int 1), (("a_b" : String), PyVal.int 2)]) ("aB") =
      some (PyVal.int 2) := ⟨rfl, rfl⟩

/-- C7 amended: (i) on a mapping in which no key contains an underscore,
`lower_camel_case_keys` is a no-op; (ii) for a real dict (nodup keys) no key
of the result contains an underscore (every underscored key is renamed);
(iii) hence running it twice equals running it once; and (iv) an
underscore-free key's binding is unchanged provided no underscored key
camel-cases onto it (without that proviso the binding can be overwritten, see
the counterexample). -/
theorem lower_camel_case_keys_amended (d : PyDict) :
    ((∀ k ∈ d.map Prod.fst, '_' ∉ k.data) → lower_camel_case_keys d = d) ∧
    ((d.map Prod.fst).Nodup →
      ∀ k ∈ (lower_camel_case_keys d).map Prod.fst, '_' ∉ k.data) ∧
    ((d.map Prod.fst).Nodup →
      lower_camel_case_keys (lower_camel_case_keys d) = lower_camel_case_keys d) ∧
    (∀ k, '_' ∉ k.data →
      (∀ k2 ∈ d.map Prod.fst, '_' ∈ k2.data → camel_and_lower k2 ≠ k) →
      dictGet (lower_camel_case_keys d) k = dictGet d k) := by
  have hnoop : ∀ e : PyDict, (∀ k ∈ e.map Prod.fst, '_' ∉ k.data) →
      lower_camel_case_keys e = e :=
    fun e he => lcck_go_noop (e.map Prod.fst) e he
  have hkeys : (d.map Prod.fst).Nodup →
      ∀ k ∈ (lower_camel_case_keys d).map Prod.fst, '_' ∉ k.data :=
    fun hnd => lcck_go_keys_no_underscore (d.map Prod.fst) d hnd
      (fun key hkey => Or.inr hkey)
  refine ⟨hnoop d, hkeys, fun hnd => hnoop _ (hkeys hnd), fun k hk hcol => ?_⟩
  exact lcck_go_get (d.map Prod.fst) d k hk hcol

/-- C7 witness: the amended theorem applied to the concrete dict
`{my_key: 3, plain: 4}`, discharging the nodup hypotheses. -/
theorem lower_camel_case_keys_amended_witness :
    lower_camel_case_keys (lower_camel_case_keys
        [(("my_key" : String), PyVal.int 3), (("plain" : String), PyVal.int 4)]) =
      lower_camel_case_keys
        [(("my_key" : String), PyVal.int 3), (("plain" : String), PyVal.int 4)] ∧
    dictGet (lower_camel_case_keys
        [(("my_key" : String), PyVal.int 3), (("plain" : String), PyVal.int 4)]) ("plain") =
      some (PyVal.int 4) :=
  ⟨(lower_camel_case_keys_amended _).2.2.1 (by decide),
   (lower_camel_case_keys_amended _).2.2.2 ("plain") (by decide) (by decide)⟩

/-- C8: `to_camel_case` consumes every underscore without emitting it (the
result never contains one) and upper-cases the character following an
underscore, with the spec's four sample values. -/
theorem to_camel_case_spec :
    (∀ s : String, '_' ∉ (to_camel_case s).data) ∧
    to_camel_case ("snake_cased") = "snakeCased" ∧
    to_camel_case ("a_b_c") = "aBC" ∧
    to_camel_case ("") = "" ∧
    to_camel_case ("_leading") = "Leading" :=
  ⟨to_camel_case_no_underscore, rfl, rfl, rfl, rfl⟩

/-- C9: the single-pass alternation substitution with the dialect table
`{' -> ", False -> false, True -> true}` leaves no occurrence of any pattern
key in its output, for EVERY input text (so in particular also for
occurrences inside double-quoted string content): every occurrence is
replaced, and no replacement reintroduces a pattern. -/
theorem multiple_replace_dialect_clean (text : String) :
    hasSub (("\x27").data) ((multiple_replace dialect_patterns text).data) = false ∧
    hasSub (("False").data) ((multiple_replace dialect_patterns text).data) = false ∧
    hasSub (("True").data) ((multiple_replace dialect_patterns text).data) = false := by
  have h := mrep_dpats_clean text.data.length text.data le_rfl
  exact h

/-- C10: `JSONMixin.__repr__` and `JSONMixin.to_json` return the same text,
and both equal `julia_pycall_compatible_serialize(self)` (each simply calls
it). -/
theorem JSONMixin_text_agree (o : PyObj) :
    JSONMixin_repr o = JSONMixin_to_json o ∧
    JSONMixin_to_json o = julia_pycall_compatible_serialize o := ⟨rfl, rfl⟩

theorem readD_append (h : Heap) (d : PyDict) (a : Nat) (ha : a < h.length) :
    readD (h ++ [d]) a = readD h a := by
  unfold readD
  rw [List.getD_eq_getElem?_getD, List.getD_eq_getElem?_getD,
    List.getElem?_append, if_pos ha]

theorem readD_set_ne (h : Heap) (i : Nat) (d : PyDict) (a : Nat) (hne : i ≠ a) :
    readD (writeD h i d) a = readD h a := by
  unfold readD writeD
  rw [List.getD_eq_getElem?_getD, List.getD_eq_getElem?_getD,
    List.getElem?_set_ne hne]

/-- C6: neither `serialize` nor `julia_pycall_compatible_serialize` mutates
the source object's attribute dict: `vars(o)` aliases the dict at address
`a`, but the comprehension rebinds `attrs` to a freshly allocated dict, and
every in-place deletion and renaming targets only that fresh address — so
the dict stored at `a` is unchanged whether the call succeeds or raises. -/
theorem serialize_frame (h : Heap) (a : Nat) (ha : a < h.length) :
    readD ((serialize_st a h).1) a = readD h a ∧
    readD ((julia_pycall_compatible_serialize_st a h).1) a = readD h a := by
  have hne : h.length ≠ a := fun he => absurd he.symm (Nat.ne_of_lt ha)
  constructor
  · simp only [serialize_st, default_serialize_st]
    rw [readD_set_ne _ _ _ _ hne, readD_set_ne _ _ _ _ hne, readD_append _ _ _ ha]
  · unfold julia_pycall_compatible_serialize_st
    rcases hb : buildAttrs (readD h a) with e | d1
    · rfl
    · simp only []
      rw [readD_set_ne _ _ _ _ hne, readD_set_ne _ _ _ _ hne, readD_append _ _ _ ha]

/-- C6 witness: the frame property at a one-object heap. -/
theorem serialize_frame_witness :
    readD ((serialize_st 0 [[(("x" : String), PyVal.int 1)]]).1) 0 =
      readD [[(("x" : String), PyVal.int 1)]] 0 ∧
    readD ((julia_pycall_compatible_serialize_st 0 [[(("x" : String), PyVal.int 1)]]).1) 0 =
      readD [[(("x" : String), PyVal.int 1)]] 0 :=
  serialize_frame [[(("x" : String), PyVal.int 1)]] 0 (by decide)

end JsonTools
